import Mathlib

/-!
Verification development for the PreviewAutoCacher core
(src/app/render/previewautocacher.h).

Only the class header is present in the repository sources; the bodies of
the operations (TimeRangeList, RenderJobTracker, ProcessUpdateQueue,
SetPaused, GenerateHashes, HashesProcessed, CancelVideoTasks, ...) live in
translation units that are not part of the source tree.  Following the
header's declarations, each such operation is modelled from the spec, and
the testable properties of the spec are proved against that model.
Time is the rational time axis of the spec, versions (JobTime) are natural
numbers, node identities and content hashes are natural numbers.
-/

namespace OliveSpec

/-- Modelled from the spec: a `TimeRange` is a half-open interval
[tin, tout) on the rational time axis (spec section 3; the header uses
the repository's `TimeRange` type whose definition is not in src/). -/
structure TimeRange where
  tin : ℚ
  tout : ℚ
deriving DecidableEq, Repr

/-- A rational time t lies in the half-open interval [tin, tout). -/
def TimeRange.mem (r : TimeRange) (t : ℚ) : Prop :=
  r.tin ≤ t ∧ t < r.tout

instance (r : TimeRange) (t : ℚ) : Decidable (r.mem t) := by
  unfold TimeRange.mem; infer_instance

/-- A range is nonempty exactly when its start is strictly before its end. -/
def TimeRange.nonempty (r : TimeRange) : Prop := r.tin < r.tout

instance (r : TimeRange) : Decidable r.nonempty := by
  unfold TimeRange.nonempty; infer_instance

/-- Two ranges overlap when some time lies in both (used by the staleness
check: a mutation region overlapping a job's range). -/
def TimeRange.overlaps (a b : TimeRange) : Prop :=
  a.tin < b.tout ∧ b.tin < a.tout ∧ a.nonempty ∧ b.nonempty

instance (a b : TimeRange) : Decidable (a.overlaps b) := by
  unfold TimeRange.overlaps; infer_instance

/-- Modelled from the spec: a `TimeRangeList` (TimeRangeSet) is kept as a
sorted, coalesced sequence of ranges; this is the representation type, the
invariant is `WellFormed` below. -/
def TimeRangeList : Type := List TimeRange

/-- Consecutive ranges of a coalesced list are strictly separated: the
earlier one ends strictly before the later one starts (overlapping or
merely touching ranges would have been merged). -/
def Separated (l : List TimeRange) : Prop :=
  List.Chain' (fun a b => a.tout < b.tin) l

/-- The TimeRangeSet invariant of the spec: every stored range is nonempty
and the list is sorted with no two ranges overlapping or adjacent. -/
def WellFormed (l : List TimeRange) : Prop :=
  (∀ r ∈ l, r.nonempty) ∧ Separated l

/-- A time is covered by the set when it lies in one of its ranges. -/
def covers (l : List TimeRange) (t : ℚ) : Prop :=
  ∃ r ∈ l, r.mem t

/-- Modelled from the spec: `TimeRangeList::insert` walks the sorted list,
placing the new range before the first strictly-later range and merging it
with every range it overlaps or touches; an empty range inserts nothing
(spec: insert/merge always re-coalesces adjacent/overlapping ranges). -/
def insertCoalesce (r : TimeRange) : List TimeRange → List TimeRange
  | [] => [r]
  | s :: rest =>
    if r.tout < s.tin then
      r :: s :: rest
    else if s.tout < r.tin then
      s :: insertCoalesce r rest
    else
      insertCoalesce ⟨min r.tin s.tin, max r.tout s.tout⟩ rest

/-- Guarded insert: inserting an empty range is a no-op, so that the set
only ever stores nonempty intervals. -/
def TimeRangeList.insert (l : List TimeRange) (r : TimeRange) : List TimeRange :=
  if r.nonempty then insertCoalesce r l else l

/-- Inserting a whole sequence of ranges, in order, starting from a set. -/
def insertAll (l : List TimeRange) (rs : List TimeRange) : List TimeRange :=
  rs.foldl TimeRangeList.insert l

lemma insertCoalesce_nonempty (l : List TimeRange) :
    ∀ r : TimeRange, r.nonempty → (∀ s ∈ l, s.nonempty) →
    ∀ x ∈ insertCoalesce r l, x.nonempty := by
  induction l with
  | nil =>
    intro r hr _ x hx
    simp only [insertCoalesce, List.mem_singleton] at hx
    exact hx ▸ hr
  | cons s rest ih =>
    intro r hr hl x hx
    simp only [insertCoalesce] at hx
    split at hx
    · simp only [List.mem_cons] at hx
      rcases hx with h | h | h
      · exact h ▸ hr
      · exact h ▸ hl s (by simp)
      · exact hl x (by simp [h])
    · split at hx
      · simp only [List.mem_cons] at hx
        rcases hx with h | h
        · exact h ▸ hl s (by simp)
        · exact ih r hr (fun y hy => hl y (by simp [hy])) x h
      · refine ih ⟨min r.tin s.tin, max r.tout s.tout⟩ ?_ (fun y hy => hl y (by simp [hy])) x hx
        have hs : s.nonempty := hl s (by simp)
        unfold TimeRange.nonempty at hr hs ⊢
        simp only
        calc min r.tin s.tin ≤ r.tin := min_le_left _ _
          _ < r.tout := hr
          _ ≤ max r.tout s.tout := le_max_left _ _

lemma insertCoalesce_lower (l : List TimeRange) :
    ∀ (r : TimeRange) (c : ℚ), c < r.tin → (∀ s ∈ l, c < s.tin) →
    ∀ x ∈ insertCoalesce r l, c < x.tin := by
  induction l with
  | nil =>
    intro r c hr _ x hx
    simp only [insertCoalesce, List.mem_singleton] at hx
    exact hx ▸ hr
  | cons s rest ih =>
    intro r c hr hl x hx
    simp only [insertCoalesce] at hx
    split at hx
    · simp only [List.mem_cons] at hx
      rcases hx with h | h | h
      · exact h ▸ hr
      · exact h ▸ hl s (by simp)
      · exact hl x (by simp [h])
    · split at hx
      · simp only [List.mem_cons] at hx
        rcases hx with h | h
        · exact h ▸ hl s (by simp)
        · exact ih r c hr (fun y hy => hl y (by simp [hy])) x h
      · refine ih ⟨min r.tin s.tin, max r.tout s.tout⟩ c ?_ (fun y hy => hl y (by simp [hy])) x hx
        have hs : c < s.tin := hl s (by simp)
        simp only [lt_min_iff]
        exact ⟨hr, hs⟩

lemma separated_head_lt (rest : List TimeRange) :
    ∀ s : TimeRange, (∀ r ∈ rest, r.nonempty) → Separated (s :: rest) →
    ∀ y ∈ rest, s.tout < y.tin := by
  induction rest with
  | nil => simp
  | cons y ys ih =>
    intro s hne h z hz
    have h1 : s.tout < y.tin := (List.chain'_cons.mp h).1
    rcases List.mem_cons.mp hz with hz | hz
    · exact hz ▸ h1
    · have hy : y.nonempty := hne y (by simp)
      have h2 : y.tout < z.tin :=
        ih y (fun r hr => hne r (by simp [hr])) (List.chain'_cons.mp h).2 z hz
      exact lt_trans h1 (lt_trans hy h2)

lemma insertCoalesce_separated (l : List TimeRange) :
    ∀ r : TimeRange, r.nonempty → (∀ s ∈ l, s.nonempty) → Separated l →
    Separated (insertCoalesce r l) := by
  induction l with
  | nil =>
    intro r _ _ _
    simp [insertCoalesce, Separated]
  | cons s rest ih =>
    intro r hr hne hl
    have hs : s.nonempty := hne s (by simp)
    have hnerest : ∀ y ∈ rest, y.nonempty := fun y hy => hne y (by simp [hy])
    have hrest : Separated rest := hl.tail
    simp only [insertCoalesce]
    split
    · rename_i h1
      exact List.chain'_cons.mpr ⟨h1, hl⟩
    · split
      · rename_i h1 h2
        have hbelow : ∀ x ∈ insertCoalesce r rest, s.tout < x.tin :=
          insertCoalesce_lower rest r s.tout h2
            (separated_head_lt rest s hnerest hl)
        refine List.chain'_cons'.mpr ⟨?_, ih r hr hnerest hrest⟩
        intro y hy
        exact hbelow y (List.mem_of_mem_head? hy)
      · rename_i h1 h2
        exact ih ⟨min r.tin s.tin, max r.tout s.tout⟩
          (by
            unfold TimeRange.nonempty at hr hs ⊢
            simp only
            calc min r.tin s.tin ≤ r.tin := min_le_left _ _
              _ < r.tout := hr
              _ ≤ max r.tout s.tout := le_max_left _ _)
          hnerest hrest

lemma covers_cons (a : TimeRange) (l : List TimeRange) (t : ℚ) :
    covers (a :: l) t ↔ a.mem t ∨ covers l t := by
  simp [covers]

lemma mem_merge (r s : TimeRange) (t : ℚ)
    (h1 : s.tin ≤ r.tout) (h2 : r.tin ≤ s.tout) :
    TimeRange.mem ⟨min r.tin s.tin, max r.tout s.tout⟩ t ↔
      TimeRange.mem r t ∨ TimeRange.mem s t := by
  unfold TimeRange.mem
  simp only [min_le_iff, lt_max_iff]
  constructor
  · rintro ⟨hmin, hmax⟩
    rcases hmax with hA | hB
    · rcases le_or_lt r.tin t with hc | hc
      · exact Or.inl ⟨hc, hA⟩
      · rcases hmin with hm | hm
        · linarith
        · exact Or.inr ⟨hm, by linarith⟩
    · rcases le_or_lt s.tin t with hc | hc
      · exact Or.inr ⟨hc, hB⟩
      · rcases hmin with hm | hm
        · exact Or.inl ⟨hm, by linarith⟩
        · linarith
  · rintro (⟨ha, hb⟩ | ⟨ha, hb⟩)
    · exact ⟨Or.inl ha, Or.inl hb⟩
    · exact ⟨Or.inr ha, Or.inr hb⟩

lemma covers_insertCoalesce (l : List TimeRange) :
    ∀ r : TimeRange, ∀ t : ℚ,
    covers (insertCoalesce r l) t ↔ (r.mem t ∨ covers l t) := by
  induction l with
  | nil =>
    intro r t
    simp [insertCoalesce, covers]
  | cons s rest ih =>
    intro r t
    simp only [insertCoalesce]
    split
    · rw [covers_cons]
    · split
      · rename_i h1 h2
        rw [covers_cons, covers_cons, ih r t]
        tauto
      · rename_i h1 h2
        rw [ih ⟨min r.tin s.tin, max r.tout s.tout⟩ t,
          mem_merge r s t (le_of_not_lt h1) (le_of_not_lt h2), covers_cons]
        tauto

lemma empty_not_mem (r : TimeRange) (hr : ¬ r.nonempty) (t : ℚ) : ¬ r.mem t := by
  intro ⟨h1, h2⟩
  exact hr (lt_of_le_of_lt h1 h2)

lemma insert_wellFormed (l : List TimeRange) (r : TimeRange) (h : WellFormed l) :
    WellFormed (TimeRangeList.insert l r) := by
  unfold TimeRangeList.insert
  split
  · rename_i hr
    exact ⟨insertCoalesce_nonempty l r hr h.1, insertCoalesce_separated l r hr h.1 h.2⟩
  · exact h

lemma covers_insert (l : List TimeRange) (r : TimeRange) (t : ℚ) :
    covers (TimeRangeList.insert l r) t ↔ (r.mem t ∨ covers l t) := by
  unfold TimeRangeList.insert
  split
  · exact covers_insertCoalesce l r t
  · rename_i hr
    simp [empty_not_mem r hr t]

lemma insertAll_spec (rs : List TimeRange) :
    ∀ l : List TimeRange, WellFormed l →
    WellFormed (insertAll l rs) ∧
      (∀ t : ℚ, covers (insertAll l rs) t ↔ (covers l t ∨ ∃ r ∈ rs, r.mem t)) := by
  induction rs with
  | nil =>
    intro l hl
    exact ⟨hl, by simp [insertAll]⟩
  | cons r rs ih =>
    intro l hl
    have step := ih (TimeRangeList.insert l r) (insert_wellFormed l r hl)
    refine ⟨step.1, fun t => ?_⟩
    have : insertAll l (r :: rs) = insertAll (TimeRangeList.insert l r) rs := rfl
    rw [this, step.2 t, covers_insert l r t]
    simp only [List.mem_cons]
    constructor
    · rintro ((h | h) | ⟨x, hx, hm⟩)
      · exact Or.inr ⟨r, Or.inl rfl, h⟩
      · exact Or.inl h
      · exact Or.inr ⟨x, Or.inr hx, hm⟩
    · rintro (h | ⟨x, hx | hx, hm⟩)
      · exact Or.inl (Or.inr h)
      · exact Or.inl (Or.inl (hx ▸ hm))
      · exact Or.inr ⟨x, hx, hm⟩

lemma wf_pairwise (l : List TimeRange) :
    (∀ r ∈ l, r.nonempty) → Separated l →
    List.Pairwise (fun a b => a.tout < b.tin) l := by
  induction l with
  | nil => simp
  | cons s rest ih =>
    intro hne hsep
    refine List.pairwise_cons.mpr ⟨?_, ih (fun y hy => hne y (by simp [hy])) hsep.tail⟩
    exact separated_head_lt rest s (fun y hy => hne y (by simp [hy])) hsep

example : insertAll [] [⟨0, 2⟩, ⟨2, 3⟩] = [(⟨0, 3⟩ : TimeRange)] := by decide

example : insertAll [] [⟨0, 2⟩, ⟨5, 6⟩, ⟨1, 5⟩] = [(⟨0, 6⟩ : TimeRange)] := by decide

example : insertAll [] [⟨4, 5⟩, ⟨0, 1⟩, ⟨2, 2⟩] = [(⟨0, 1⟩ : TimeRange), ⟨4, 5⟩] := by decide

/-- C3: for any sequence of inserts of time ranges into a TimeRangeSet
(TimeRangeList), the resulting set is sorted and contains no two ranges
that overlap or are adjacent (every stored range is nonempty and each
range ends strictly before every later one starts, so touching ranges
were merged), and the set of times it covers equals the union of the
inserted ranges — hence the total covered duration equals the duration
of that union. -/
theorem timeRangeSet_insert_coalescing (rs : List TimeRange) :
    (∀ r ∈ insertAll [] rs, r.nonempty) ∧
    List.Pairwise (fun a b => a.tout < b.tin) (insertAll [] rs) ∧
    (∀ t : ℚ, covers (insertAll [] rs) t ↔ ∃ r ∈ rs, r.mem t) := by
  have h := insertAll_spec rs [] ⟨by simp, List.chain'_nil⟩
  refine ⟨h.1.1, wf_pairwise _ h.1.1 h.1.2, fun t => ?_⟩
  rw [h.2 t]
  simp [covers]

/-- Modelled from the spec: `JobTime` is an opaque strictly increasing
version counter (the header only declares the type). -/
abbrev JobTime := Nat

/-- Modelled from the spec: the record a `RenderJobTracker` keeps for an
in-flight work key: the job's time range and the `JobTime` at dispatch. -/
structure TrackedJob where
  key : ℚ
  range : TimeRange
  dispatch : JobTime
deriving DecidableEq, Repr

/-- Modelled from the spec: the footprint of a queued mutation used by the
staleness check: the graph version it produced and the region it affects. -/
structure GraphChange where
  version : JobTime
  region : TimeRange
deriving DecidableEq, Repr

/-- Classification a `RenderJobTracker` returns for a completion. -/
inductive Classification where
  | fresh
  | stale
deriving DecidableEq, Repr

/-- Modelled from the spec: the slice of `PreviewAutoCacher` state the
staleness protocol touches: the two logical clocks (`graph_changed_time_`
and `last_update_time_`), the history of graph changes, the in-flight job
tracker, the set of cached frame times and the pending (invalidated)
video range set. -/
structure CacherState where
  graphChangedTime : JobTime
  lastSyncTime : JobTime
  changes : List GraphChange
  inflight : List TrackedJob
  cacheTimes : List ℚ
  invalidatedVideo : List TimeRange
deriving DecidableEq, Repr

/-- The empty cacher state, as right after construction. -/
def initState : CacherState :=
  ⟨0, 0, [], [], [], []⟩

/-- Modelled from the spec: queuing a mutation bumps `graph_changed_time_`
(`UpdateGraphChangeValue`) and invalidates the affected region. -/
def queueMutation (region : TimeRange) (s : CacherState) : CacherState :=
  { s with
    graphChangedTime := s.graphChangedTime + 1
    changes := ⟨s.graphChangedTime + 1, region⟩ :: s.changes
    invalidatedVideo := TimeRangeList.insert s.invalidatedVideo region }

/-- Whether some job for this key is currently in flight. -/
def inFlight (s : CacherState) (key : ℚ) : Bool :=
  s.inflight.any (fun j => j.key == key)

/-- Modelled from the spec: `TryBegin(key, job_time)` returns false when
the key already has an in-flight entry, else registers the job (stamped
with the current sync version) and returns true. -/
def tryBegin (s : CacherState) (key : ℚ) (range : TimeRange) : CacherState × Bool :=
  if inFlight s key then (s, false)
  else ({ s with inflight := ⟨key, range, s.lastSyncTime⟩ :: s.inflight }, true)

/-- Modelled from the spec: a completion is stale when the graph changed
after the job was dispatched, by a mutation whose affected region
overlaps the job's time range. -/
def isStale (j : TrackedJob) (s : CacherState) : Bool :=
  s.changes.any (fun c => j.dispatch < c.version && decide (c.region.overlaps j.range))

/-- One range subtracted from another: the up-to-two remaining pieces. -/
def TimeRange.subtractOne (a b : TimeRange) : List TimeRange :=
  if b.nonempty then
    (([⟨a.tin, min a.tout b.tin⟩, ⟨max a.tin b.tout, a.tout⟩] : List TimeRange).filter
      (fun p => decide p.nonempty))
  else [a]

/-- Removing a range from every element of a range list (MarkSatisfied). -/
def subtractRange (l : List TimeRange) (r : TimeRange) : List TimeRange :=
  l.foldr (fun a acc => a.subtractOne r ++ acc) []

/-- Modelled from the spec: `Complete(key, ...)` removes the in-flight
entry and classifies it: a Fresh completion writes the frame to the cache
and marks the job's range satisfied, a Stale completion is discarded (the
cache and the pending set are left untouched).  Returns none when the key
has no in-flight entry. -/
def completeJob (s : CacherState) (key : ℚ) : Option (CacherState × Classification) :=
  match s.inflight.find? (fun j => j.key == key) with
  | none => none
  | some j =>
    let s1 := { s with inflight := s.inflight.filter (fun k => k.key != key) }
    if isStale j s then
      some (s1, Classification.stale)
    else
      some ({ s1 with
        cacheTimes := key :: s1.cacheTimes
        invalidatedVideo := subtractRange s1.invalidatedVideo j.range },
        Classification.fresh)

/-- C1: a render job dispatched while the sync version is V, when the
graph version then advances past V through a mutation whose region
overlaps the job's range before completion, is classified Stale by
`Complete`; the Stale completion is not written to the cache and the
pending (invalidated) set is left exactly as it was, so the job's range
stays pending. -/
theorem jobTracker_stale_completion_discarded
    (s s1 : CacherState) (key : ℚ) (range region : TimeRange)
    (hclock : s.lastSyncTime ≤ s.graphChangedTime)
    (hov : region.overlaps range)
    (hbegin : tryBegin s key range = (s1, true)) :
    s.lastSyncTime < (queueMutation region s1).graphChangedTime ∧
    ∃ s2, completeJob (queueMutation region s1) key = some (s2, Classification.stale) ∧
      s2.cacheTimes = (queueMutation region s1).cacheTimes ∧
      s2.invalidatedVideo = (queueMutation region s1).invalidatedVideo := by
  unfold tryBegin at hbegin
  split at hbegin
  · exact absurd (congrArg Prod.snd hbegin) (by simp)
  · injection hbegin with h1 h2
    subst h1
    refine ⟨Nat.lt_succ_of_le hclock, ?_⟩
    have hfind :
        (queueMutation region { s with
          inflight := ⟨key, range, s.lastSyncTime⟩ :: s.inflight }).inflight.find?
          (fun j => j.key == key) = some ⟨key, range, s.lastSyncTime⟩ := by
      simp [queueMutation]
    have hstale :
        isStale ⟨key, range, s.lastSyncTime⟩
          (queueMutation region { s with
            inflight := ⟨key, range, s.lastSyncTime⟩ :: s.inflight }) = true := by
      simp only [isStale, queueMutation, List.any_cons, Bool.or_eq_true, Bool.and_eq_true,
        decide_eq_true_eq]
      exact Or.inl ⟨by simpa using Nat.lt_succ_of_le hclock, hov⟩
    refine ⟨{ queueMutation region { s with
        inflight := ⟨key, range, s.lastSyncTime⟩ :: s.inflight } with
        inflight := ((queueMutation region { s with
          inflight := ⟨key, range, s.lastSyncTime⟩ :: s.inflight }).inflight.filter
          (fun k => k.key != key)) }, ?_, rfl, rfl⟩
    unfold completeJob
    rw [hfind]
    simp only [hstale, if_true]

/-- Witness for C1: a concrete job on key 0 over [0,1) dispatched from the
initial state, then an overlapping mutation, yields a Stale discarded
completion. -/
theorem jobTracker_stale_completion_discarded_witness :
    initState.lastSyncTime <
      (queueMutation ⟨0, 1⟩ { initState with
        inflight := [⟨0, ⟨0, 1⟩, 0⟩] }).graphChangedTime ∧
    ∃ s2, completeJob (queueMutation ⟨0, 1⟩ { initState with
        inflight := [⟨0, ⟨0, 1⟩, 0⟩] }) 0 = some (s2, Classification.stale) ∧
      s2.cacheTimes = (queueMutation ⟨0, 1⟩ { initState with
        inflight := [⟨0, ⟨0, 1⟩, 0⟩] }).cacheTimes ∧
      s2.invalidatedVideo = (queueMutation ⟨0, 1⟩ { initState with
        inflight := [⟨0, ⟨0, 1⟩, 0⟩] }).invalidatedVideo :=
  jobTracker_stale_completion_discarded initState
    { initState with inflight := [⟨0, ⟨0, 1⟩, 0⟩] }
    0 ⟨0, 1⟩ ⟨0, 1⟩ (by decide) (by decide) (by decide)

/-- Modelled from the spec: the operations a caller can interleave on the
tracker: dispatch attempts, completions, and graph mutations. -/
inductive TrackerOp where
  | begin (key : ℚ) (range : TimeRange)
  | complete (key : ℚ)
  | mutate (region : TimeRange)
deriving DecidableEq, Repr

/-- One tracker operation applied to the cacher state. -/
def applyOp (s : CacherState) : TrackerOp → CacherState
  | TrackerOp.begin k r => (tryBegin s k r).1
  | TrackerOp.complete k =>
    match completeJob s k with
    | none => s
    | some (s1, _) => s1
  | TrackerOp.mutate region => queueMutation region s

/-- Running a sequence of tracker operations. -/
def runOps (s : CacherState) (ops : List TrackerOp) : CacherState :=
  ops.foldl applyOp s

lemma completeJob_inflight (s : CacherState) (k : ℚ) (s1 : CacherState)
    (c : Classification) (h : completeJob s k = some (s1, c)) :
    s1.inflight = s.inflight.filter (fun j => j.key != k) := by
  unfold completeJob at h
  split at h
  · exact absurd h (by simp)
  · split at h
    · simp only [Option.some.injEq, Prod.mk.injEq] at h
      rw [← h.1]
    · simp only [Option.some.injEq, Prod.mk.injEq] at h
      rw [← h.1]

lemma inFlight_applyOp (op : TrackerOp) (s : CacherState) (k : ℚ)
    (hin : inFlight s k = true) (hop : op ≠ TrackerOp.complete k) :
    inFlight (applyOp s op) k = true := by
  cases op with
  | begin k2 r =>
    simp only [applyOp, tryBegin]
    split
    · exact hin
    · simp only [inFlight, List.any_cons, Bool.or_eq_true]
      exact Or.inr hin
  | complete k2 =>
    have hk : k2 ≠ k := fun he => hop (by rw [he])
    simp only [applyOp]
    cases hc : completeJob s k2 with
    | none => exact hin
    | some p =>
      obtain ⟨s1, c⟩ := p
      have hfl := completeJob_inflight s k2 s1 c hc
      simp only [inFlight, List.any_eq_true] at hin ⊢
      obtain ⟨j, hj, hjk⟩ := hin
      refine ⟨j, ?_, hjk⟩
      rw [hfl, List.mem_filter]
      refine ⟨hj, ?_⟩
      simp only [bne_iff_ne, ne_eq]
      intro he
      exact hk (by rw [← he, eq_of_beq hjk])
  | mutate region => exact hin

lemma inFlight_runOps (ops : List TrackerOp) :
    ∀ s : CacherState, ∀ k : ℚ, inFlight s k = true →
    (∀ op ∈ ops, op ≠ TrackerOp.complete k) →
    inFlight (runOps s ops) k = true := by
  induction ops with
  | nil => intro s k hin _; exact hin
  | cons op rest ih =>
    intro s k hin hops
    exact ih (applyOp s op) k
      (inFlight_applyOp op s k hin (hops op (by simp)))
      (fun o ho => hops o (by simp [ho]))

/-- C2: once `TryBegin` has returned true for a key, every later
`TryBegin` for that key returns false until a `Complete` for the key
intervenes, whatever other operations run in between — at most one job
per key is in flight at any time. -/
theorem jobTracker_at_most_one_inflight
    (s s1 : CacherState) (k : ℚ) (r r2 : TimeRange)
    (hbegin : tryBegin s k r = (s1, true))
    (ops : List TrackerOp)
    (hops : ∀ op ∈ ops, op ≠ TrackerOp.complete k) :
    (tryBegin (runOps s1 ops) k r2).2 = false := by
  have h1 : inFlight s1 k = true := by
    unfold tryBegin at hbegin
    split at hbegin
    · exact absurd (congrArg Prod.snd hbegin) (by simp)
    · injection hbegin with ha hb
      rw [← ha]
      simp [inFlight]
  have h2 : inFlight (runOps s1 ops) k = true :=
    inFlight_runOps ops s1 k h1 hops
  unfold tryBegin
  rw [if_pos h2]

/-- Witness for C2: after a successful TryBegin on key 0, a later
TryBegin on key 0 returns false across an unrelated dispatch and a
mutation. -/
theorem jobTracker_at_most_one_inflight_witness :
    (tryBegin (runOps { initState with inflight := [⟨0, ⟨0, 1⟩, 0⟩] }
      [TrackerOp.begin 1 ⟨1, 2⟩, TrackerOp.mutate ⟨0, 1⟩]) 0 ⟨0, 1⟩).2 = false :=
  jobTracker_at_most_one_inflight initState
    { initState with inflight := [⟨0, ⟨0, 1⟩, 0⟩] }
    0 ⟨0, 1⟩ ⟨0, 1⟩ (by decide)
    [TrackerOp.begin 1 ⟨1, 2⟩, TrackerOp.mutate ⟨0, 1⟩] (by decide)

/-- The tag of a queued mutation, as declared in the header
(`QueuedJob::Type`). -/
inductive QueuedJobKind where
  | kNodeAdded
  | kNodeRemoved
  | kEdgeAdded
  | kEdgeRemoved
  | kValueChanged
  | kValueHintChanged
deriving DecidableEq, Repr

/-- Modelled from the spec: a `NodeInput` names an input slot of a node
(node identity plus input identifier); its definition is not under src/. -/
structure NodeInput where
  node : Nat
  inputId : Nat
deriving DecidableEq, Repr

/-- The queued mutation record declared in the header (`QueuedJob`):
a tag plus the identifiers needed to replay the edit. -/
structure QueuedJob where
  type : QueuedJobKind
  node : Nat
  input : NodeInput
  output : Nat
deriving DecidableEq, Repr

/-- Which node identities a queued mutation refers to, by tag. -/
def QueuedJob.references (j : QueuedJob) (n : Nat) : Bool :=
  match j.type with
  | QueuedJobKind.kNodeAdded => j.node == n
  | QueuedJobKind.kNodeRemoved => j.node == n
  | QueuedJobKind.kEdgeAdded => j.output == n || j.input.node == n
  | QueuedJobKind.kEdgeRemoved => j.output == n || j.input.node == n
  | QueuedJobKind.kValueChanged => j.input.node == n
  | QueuedJobKind.kValueHintChanged => j.input.node == n

/-- Modelled from the spec: the private mirror copy of the graph: the
copied nodes, the edges between them, and the inputs whose values and
value hints have been re-copied. -/
structure MirrorGraph where
  nodes : List Nat
  edges : List (Nat × NodeInput)
  values : List NodeInput
  valueHints : List NodeInput
deriving DecidableEq, Repr

/-- Modelled from the spec: `AddNode` creates the mirror copy. -/
def addNode (n : Nat) (g : MirrorGraph) : MirrorGraph :=
  { g with nodes := n :: g.nodes }

/-- Modelled from the spec: `RemoveNode` deletes the copy and everything
attached to it. -/
def removeNodeGraph (n : Nat) (g : MirrorGraph) : MirrorGraph :=
  { nodes := g.nodes.filter (fun m => m != n)
    edges := g.edges.filter (fun e => e.1 != n && e.2.node != n)
    values := g.values.filter (fun v => v.node != n)
    valueHints := g.valueHints.filter (fun v => v.node != n) }

/-- Modelled from the spec: `AddEdge` connects an output to an input. -/
def addEdge (o : Nat) (i : NodeInput) (g : MirrorGraph) : MirrorGraph :=
  { g with edges := (o, i) :: g.edges }

/-- Modelled from the spec: `RemoveEdge` disconnects an output from an
input. -/
def removeEdge (o : Nat) (i : NodeInput) (g : MirrorGraph) : MirrorGraph :=
  { g with edges := g.edges.filter (fun e => !(e.1 == o && e.2 == i)) }

/-- Modelled from the spec: `CopyValue` re-copies an input's value. -/
def copyValue (i : NodeInput) (g : MirrorGraph) : MirrorGraph :=
  { g with values := i :: g.values }

/-- Modelled from the spec: `CopyValueHint` re-copies an input's value
hint. -/
def copyValueHint (i : NodeInput) (g : MirrorGraph) : MirrorGraph :=
  { g with valueHints := i :: g.valueHints }

/-- Modelled from the spec: replaying one queued mutation against the
mirror; a dangling mutation (one whose referenced nodes are no longer in
the mirror) yields none and is dropped, not treated as an error. -/
def applyJob (g : MirrorGraph) (j : QueuedJob) : Option MirrorGraph :=
  match j.type with
  | QueuedJobKind.kNodeAdded => some (addNode j.node g)
  | QueuedJobKind.kNodeRemoved =>
    if g.nodes.contains j.node then some (removeNodeGraph j.node g) else none
  | QueuedJobKind.kEdgeAdded =>
    if g.nodes.contains j.output && g.nodes.contains j.input.node then
      some (addEdge j.output j.input g)
    else none
  | QueuedJobKind.kEdgeRemoved =>
    if g.nodes.contains j.output && g.nodes.contains j.input.node then
      some (removeEdge j.output j.input g)
    else none
  | QueuedJobKind.kValueChanged =>
    if g.nodes.contains j.input.node then some (copyValue j.input g) else none
  | QueuedJobKind.kValueHintChanged =>
    if g.nodes.contains j.input.node then some (copyValueHint j.input g) else none

/-- Modelled from the spec: draining the queue replays the mutations in
FIFO order against the mirror while tracking the identities removed so
far: a mutation referencing a previously removed identity has been
cascade-removed from the queue (`RemoveNode` cascades removal of all
queued mutations referencing the removed node), and a dangling mutation
is skipped silently.  Returns the final mirror and the list of mutations
actually replayed, in order. -/
def drainAux (g : MirrorGraph) (removed : List Nat) :
    List QueuedJob → MirrorGraph × List QueuedJob
  | [] => (g, [])
  | j :: rest =>
    if removed.any (fun n => j.references n) then
      drainAux g removed rest
    else
      match applyJob g j with
      | none => drainAux g removed rest
      | some g1 =>
        let removed1 := if j.type == QueuedJobKind.kNodeRemoved then
            j.node :: removed
          else removed
        let p := drainAux g1 removed1 rest
        (p.1, j :: p.2)

/-- Draining the whole queue starts with no cascade-removed identities. -/
def drainQueue (g : MirrorGraph) (q : List QueuedJob) : MirrorGraph × List QueuedJob :=
  drainAux g [] q

/-- Modelled from the spec: the mirror with its pending mutation queue,
the number of dispatched render/hash jobs still holding the current
mirror generation, and the two logical clocks. -/
structure MirrorSync where
  graph : MirrorGraph
  queue : List QueuedJob
  jobsUsingMirror : Nat
  graphChanged : JobTime
  lastSynced : JobTime
deriving DecidableEq, Repr

/-- Modelled from the spec: `ProcessUpdateQueue` replays every queued
mutation against the mirror copy, empties the queue and snapshots the
sync clock (`UpdateLastSyncedValue`). -/
def processUpdateQueue (m : MirrorSync) : MirrorSync :=
  { m with
    graph := (drainQueue m.graph m.queue).1
    queue := []
    lastSynced := m.graphChanged }

/-- Modelled from the spec: `TryDrain` is the gated `ProcessUpdateQueue`:
it runs only when no outstanding job reads the mirror, else it is a
no-op deferred to the next opportunity. -/
def tryDrain (m : MirrorSync) : MirrorSync :=
  if m.jobsUsingMirror == 0 then processUpdateQueue m else m

/-- C4: draining is atomic: `TryDrain` either leaves the state exactly as
it was, or applies the entire queued batch in one step (full replay of
the queue, queue emptied, sync clock bumped); and while any job holds the
mirror it is always the no-op branch, so no job can observe a mirror with
only part of a batch applied. -/
theorem tryDrain_atomic (m : MirrorSync) :
    (m.jobsUsingMirror ≠ 0 → tryDrain m = m) ∧
    (tryDrain m = m ∨
      ((tryDrain m).graph = (drainQueue m.graph m.queue).1 ∧
       (tryDrain m).queue = [] ∧
       (tryDrain m).lastSynced = m.graphChanged)) := by
  unfold tryDrain
  split
  · rename_i h
    refine ⟨fun hne => absurd (by simpa using h) hne, ?_⟩
    exact Or.inr ⟨rfl, rfl, rfl⟩
  · exact ⟨fun _ => rfl, Or.inl rfl⟩

/-- Witness for C4 at a concrete state with one job holding the mirror. -/
theorem tryDrain_atomic_witness :
    ((⟨⟨[], [], [], []⟩, [], 1, 3, 2⟩ : MirrorSync).jobsUsingMirror ≠ 0 →
      tryDrain ⟨⟨[], [], [], []⟩, [], 1, 3, 2⟩ = ⟨⟨[], [], [], []⟩, [], 1, 3, 2⟩) ∧
    (tryDrain ⟨⟨[], [], [], []⟩, [], 1, 3, 2⟩ = ⟨⟨[], [], [], []⟩, [], 1, 3, 2⟩ ∨
      ((tryDrain ⟨⟨[], [], [], []⟩, [], 1, 3, 2⟩).graph =
        (drainQueue (⟨⟨[], [], [], []⟩, [], 1, 3, 2⟩ : MirrorSync).graph
          (⟨⟨[], [], [], []⟩, [], 1, 3, 2⟩ : MirrorSync).queue).1 ∧
       (tryDrain ⟨⟨[], [], [], []⟩, [], 1, 3, 2⟩).queue = [] ∧
       (tryDrain ⟨⟨[], [], [], []⟩, [], 1, 3, 2⟩).lastSynced =
        (⟨⟨[], [], [], []⟩, [], 1, 3, 2⟩ : MirrorSync).graphChanged)) :=
  tryDrain_atomic ⟨⟨[], [], [], []⟩, [], 1, 3, 2⟩

lemma drainAux_sublist (q : List QueuedJob) :
    ∀ (g : MirrorGraph) (removed : List Nat),
    List.Sublist (drainAux g removed q).2 q := by
  induction q with
  | nil =>
    intro g removed
    simp [drainAux]
  | cons j rest ih =>
    intro g removed
    simp only [drainAux]
    split
    · exact List.Sublist.cons j (ih g removed)
    · cases happ : applyJob g j with
      | none =>
        simp only [happ]
        exact List.Sublist.cons j (ih g removed)
      | some g1 =>
        simp only [happ]
        exact List.Sublist.cons₂ j (ih g1 _)

lemma drainAux_no_removed_refs (q : List QueuedJob) :
    ∀ (g : MirrorGraph) (removed : List Nat) (n : Nat), n ∈ removed →
    ∀ j ∈ (drainAux g removed q).2, j.references n = false := by
  induction q with
  | nil =>
    intro g removed n _ j hj
    simp [drainAux] at hj
  | cons k rest ih =>
    intro g removed n hn j hj
    simp only [drainAux] at hj
    split at hj
    · exact ih g removed n hn j hj
    · rename_i hnotref
      cases happ : applyJob g k with
      | none =>
        rw [happ] at hj
        exact ih g removed n hn j hj
      | some g1 =>
        rw [happ] at hj
        simp only [List.mem_cons] at hj
        rcases hj with hj | hj
        · subst hj
          rcases Bool.eq_false_or_eq_true (j.references n) with ht | hf
          · exact absurd (by
              simp only [List.any_eq_true]
              exact ⟨n, hn, ht⟩) hnotref
          · exact hf
        · refine ih g1 _ n ?_ j hj
          split
          · exact List.mem_cons_of_mem _ hn
          · exact hn

/-- C7: mutations are replayed against the mirror in FIFO arrival order
(the replayed mutations form an in-order sublist of the queue), and once
a `kNodeRemoved` for an existing node heads the queue, no later queued
mutation referencing that node's identity is replayed — dangling
mutations are dropped silently, never treated as an error. -/
theorem mutation_queue_fifo_and_cascade (g : MirrorGraph) (q : List QueuedJob) :
    List.Sublist (drainQueue g q).2 q ∧
    (∀ (jr : QueuedJob) (post : List QueuedJob),
      jr.type = QueuedJobKind.kNodeRemoved →
      g.nodes.contains jr.node = true →
      q = jr :: post →
      ∀ j ∈ (drainQueue g q).2, j.references jr.node = true → j = jr) := by
  refine ⟨drainAux_sublist q g [], ?_⟩
  intro jr post htype hnode hq j hj href
  subst hq
  have happ : applyJob g jr = some (removeNodeGraph jr.node g) := by
    simp only [applyJob, htype, hnode, if_true]
  simp only [drainQueue, drainAux, List.any_nil, Bool.false_eq_true, if_false,
    happ, htype, beq_self_eq_true, if_true, List.mem_cons] at hj
  rcases hj with hj | hj
  · exact hj
  · have hfalse := drainAux_no_removed_refs post (removeNodeGraph jr.node g)
      [jr.node] jr.node (by simp) j hj
    rw [href] at hfalse
    exact absurd hfalse (by simp)

/-- Witness for C7: removing node 5 from a mirror containing it drops the
later value change referencing node 5 while the unrelated node addition
is still replayed; the only replayed mutation referencing node 5 is the
removal itself. -/
theorem mutation_queue_fifo_and_cascade_witness :
    List.Sublist (drainQueue ⟨[5], [], [], []⟩
      [⟨QueuedJobKind.kNodeRemoved, 5, ⟨0, 0⟩, 0⟩,
       ⟨QueuedJobKind.kValueChanged, 0, ⟨5, 1⟩, 0⟩,
       ⟨QueuedJobKind.kNodeAdded, 7, ⟨0, 0⟩, 0⟩]).2
      [⟨QueuedJobKind.kNodeRemoved, 5, ⟨0, 0⟩, 0⟩,
       ⟨QueuedJobKind.kValueChanged, 0, ⟨5, 1⟩, 0⟩,
       ⟨QueuedJobKind.kNodeAdded, 7, ⟨0, 0⟩, 0⟩] ∧
    (⟨QueuedJobKind.kNodeRemoved, 5, ⟨0, 0⟩, 0⟩ : QueuedJob) =
      ⟨QueuedJobKind.kNodeRemoved, 5, ⟨0, 0⟩, 0⟩ :=
  ⟨(mutation_queue_fifo_and_cascade ⟨[5], [], [], []⟩
      [⟨QueuedJobKind.kNodeRemoved, 5, ⟨0, 0⟩, 0⟩,
       ⟨QueuedJobKind.kValueChanged, 0, ⟨5, 1⟩, 0⟩,
       ⟨QueuedJobKind.kNodeAdded, 7, ⟨0, 0⟩, 0⟩]).1,
   (mutation_queue_fifo_and_cascade ⟨[5], [], [], []⟩
      [⟨QueuedJobKind.kNodeRemoved, 5, ⟨0, 0⟩, 0⟩,
       ⟨QueuedJobKind.kValueChanged, 0, ⟨5, 1⟩, 0⟩,
       ⟨QueuedJobKind.kNodeAdded, 7, ⟨0, 0⟩, 0⟩]).2
     ⟨QueuedJobKind.kNodeRemoved, 5, ⟨0, 0⟩, 0⟩
     [⟨QueuedJobKind.kValueChanged, 0, ⟨5, 1⟩, 0⟩,
      ⟨QueuedJobKind.kNodeAdded, 7, ⟨0, 0⟩, 0⟩]
     rfl (by decide) rfl
     ⟨QueuedJobKind.kNodeRemoved, 5, ⟨0, 0⟩, 0⟩ (by decide) (by decide)⟩

/-- The pointwise intersection of two ranges (empty when disjoint). -/
def TimeRange.intersect (a b : TimeRange) : TimeRange :=
  ⟨max a.tin b.tin, min a.tout b.tout⟩

/-- Clipping a range list to a window, keeping the nonempty pieces. -/
def intersectList (l : List TimeRange) (r : TimeRange) : List TimeRange :=
  (l.map (fun a => a.intersect r)).filter (fun p => decide p.nonempty)

/-- Modelled from the spec: the scheduler state `SetPaused` touches: the
pause flag (`paused_`), the active cache range (`cache_range_`), the
invalidated range sets (the pending work) and the queued-but-not-yet-
dispatched work (`queued_frame_iterator_`, `audio_iterator_`). -/
structure SchedState where
  paused : Bool
  cacheRange : TimeRange
  invalidatedVideo : List TimeRange
  invalidatedAudio : List TimeRange
  queuedFrames : List TimeRange
  queuedAudio : List TimeRange
deriving DecidableEq, Repr

/-- Modelled from the spec: `RequeueFrames` recomputes the queued work
from the currently invalidated ranges clipped to the cache window. -/
def requeue (s : SchedState) : SchedState :=
  { s with
    queuedFrames := intersectList s.invalidatedVideo s.cacheRange
    queuedAudio := intersectList s.invalidatedAudio s.cacheRange }

/-- From the header: `IsPaused` is a const member returning `paused_`; it
reads the flag and leaves the state untouched. -/
def IsPausedOp (s : SchedState) : Bool × SchedState :=
  (s.paused, s)

/-- Modelled from the spec and the header comment on `SetPaused`: with
true the cache queue is cleared (in-flight work unaffected); with false
every currently invalidated range inside the cache window is requeued.
The pending-work (invalidated) sets are not modified in either case. -/
def SetPaused (b : Bool) (s : SchedState) : SchedState :=
  if b then
    { s with paused := true, queuedFrames := [], queuedAudio := [] }
  else
    requeue { s with paused := false }

/-- The pending-work set of the scheduler: what still needs caching. -/
def pendingWork (s : SchedState) : List TimeRange × List TimeRange :=
  (s.invalidatedVideo, s.invalidatedAudio)

/-- C5: pausing and then unpausing with no intervening edits is the
identity on the pending-work set — no invalidated work is lost and none
is duplicated; in fact the whole state after pause-then-unpause equals
the state after a plain unpause, whose queues are recomputed from
exactly the invalidated sets held before pausing. -/
theorem setPaused_roundtrip_pendingWork (s : SchedState) :
    pendingWork (SetPaused false (SetPaused true s)) = pendingWork s ∧
    SetPaused false (SetPaused true s) = SetPaused false s := by
  constructor
  · rfl
  · simp [SetPaused, requeue]

/-- C10: after `SetPaused(b)` the next `IsPaused()` returns exactly b,
and reading `IsPaused` modifies no state of the cacher. -/
theorem isPaused_returns_last_setPaused (b : Bool) (s : SchedState) :
    (IsPausedOp (SetPaused b s)).1 = b ∧
    (IsPausedOp s).2 = s := by
  refine ⟨?_, rfl⟩
  cases b
  · rfl
  · rfl

/-- The `HashData` record from the header: a time, the frame's content
hash, and whether that hash already exists in the cache. -/
structure HashData where
  time : ℚ
  hash : Nat
  «exists» : Bool
deriving DecidableEq, Repr

/-- Modelled from the spec: the video bookkeeping `HashesProcessed`
updates: the cache contents by hash, the in-flight render jobs keyed by
hash (`video_tasks_`), and the times marked satisfied without a render. -/
structure VideoState where
  cacheHashes : List Nat
  videoTasks : List Nat
  satisfied : List ℚ
deriving DecidableEq, Repr

/-- Modelled from the spec: on hashing completion, an entry already in
the cache is marked satisfied without dispatching a render; an entry not
cached and not already in flight gets a render job dispatched
(`RenderFrame`), its hash entering the in-flight set; an entry whose
hash is already in flight is neither re-dispatched nor satisfied here.
Returns the new state and the entries a render job was dispatched for,
in order. -/
def hashesProcessed (s : VideoState) : List HashData → VideoState × List HashData
  | [] => (s, [])
  | e :: rest =>
    if e.exists then
      hashesProcessed { s with satisfied := e.time :: s.satisfied } rest
    else if s.videoTasks.contains e.hash then
      hashesProcessed s rest
    else
      let p := hashesProcessed { s with videoTasks := e.hash :: s.videoTasks } rest
      (p.1, e :: p.2)

lemma hashesProcessed_dispatched (entries : List HashData) :
    ∀ s : VideoState, (entries.map (fun e => e.hash)).Nodup →
    (hashesProcessed s entries).2 =
      entries.filter (fun e => ! e.exists && ! s.videoTasks.contains e.hash) := by
  induction entries with
  | nil => intro s _; simp [hashesProcessed]
  | cons e rest ih =>
    intro s hnd
    have hnd2 : (rest.map (fun x => x.hash)).Nodup := (List.nodup_cons.mp hnd).2
    have hne : e.hash ∉ rest.map (fun x => x.hash) := (List.nodup_cons.mp hnd).1
    simp only [hashesProcessed]
    split
    · rename_i hex
      rw [ih _ hnd2]
      rw [List.filter_cons]
      simp [hex]
    · rename_i hex
      split
      · rename_i hfl
        rw [ih s hnd2]
        rw [List.filter_cons]
        simp only [hex, Bool.not_false, Bool.and_self]
        rw [if_neg (by simpa using hfl)]
      · rename_i hfl
        rw [ih _ hnd2]
        rw [List.filter_cons]
        simp only [hex, hfl, Bool.not_false, Bool.and_self, if_true]
        congr 1
        refine List.filter_congr ?_
        intro x hx
        have hxe : x.hash ≠ e.hash := by
          intro he
          exact hne (he ▸ List.mem_map_of_mem (fun y => y.hash) hx)
        have hb : (x.hash == e.hash) = false := beq_eq_false_iff_ne.mpr hxe
        simp only [List.contains_cons, hb]
        simp

lemma hashesProcessed_satisfied (entries : List HashData) :
    ∀ s : VideoState,
    (hashesProcessed s entries).1.satisfied =
      ((entries.filter (fun e => e.exists)).reverse.map (fun e => e.time)) ++
        s.satisfied := by
  induction entries with
  | nil => intro s; simp [hashesProcessed]
  | cons e rest ih =>
    intro s
    simp only [hashesProcessed]
    split
    · rename_i hex
      rw [ih]
      rw [List.filter_cons]
      simp [hex]
    · rename_i hex
      split
      · rw [ih]
        rw [List.filter_cons]
        simp [hex]
      · rw [ih]
        rw [List.filter_cons]
        simp [hex]

/-- C6: on hashing completion a render job is dispatched for exactly the
hash entries not already cached and not already in flight, in order,
while the entries already cached are marked satisfied without a render
being dispatched. -/
theorem hashesProcessed_dispatch_exactly (entries : List HashData) (s : VideoState)
    (hnd : (entries.map (fun e => e.hash)).Nodup) :
    (hashesProcessed s entries).2 =
      entries.filter (fun e => ! e.exists && ! s.videoTasks.contains e.hash) ∧
    (hashesProcessed s entries).1.satisfied =
      ((entries.filter (fun e => e.exists)).reverse.map (fun e => e.time)) ++
        s.satisfied :=
  ⟨hashesProcessed_dispatched entries s hnd, hashesProcessed_satisfied entries s⟩

/-- A hash batch over the ten times 0..9 of which exactly the three at
times 2, 5 and 8 are already cached. -/
def sampleHashBatch : List HashData :=
  [⟨0, 100, false⟩, ⟨1, 101, false⟩, ⟨2, 102, true⟩, ⟨3, 103, false⟩,
   ⟨4, 104, false⟩, ⟨5, 105, true⟩, ⟨6, 106, false⟩, ⟨7, 107, false⟩,
   ⟨8, 108, true⟩, ⟨9, 109, false⟩]

/-- Witness for C6: for the ten-entry batch with three entries already
cached and nothing in flight, the dispatched jobs are exactly the seven
uncached entries. -/
theorem hashesProcessed_dispatch_exactly_witness :
    ((sampleHashBatch.map (fun e => e.hash)).Nodup ∧
     (hashesProcessed ⟨[], [], []⟩ sampleHashBatch).2 =
       sampleHashBatch.filter (fun e => ! e.exists &&
         ! (⟨[], [], []⟩ : VideoState).videoTasks.contains e.hash)) ∧
    (hashesProcessed ⟨[], [], []⟩ sampleHashBatch).2.length = 7 :=
  ⟨⟨by decide,
    (hashesProcessed_dispatch_exactly sampleHashBatch ⟨[], [], []⟩ (by decide)).1⟩,
   by decide⟩

/-- Modelled from the spec: the content fingerprint of the frame at a
given time against a mirror snapshot — a function of the snapshot and
the time only. -/
def frameHash (viewer : MirrorGraph) (t : ℚ) : Nat :=
  viewer.nodes.sum + viewer.edges.length + viewer.values.length +
    viewer.valueHints.length + t.num.natAbs + t.den

/-- Modelled from the spec and the header: `GenerateHashes` is a static,
read-only function: for each requested time it produces a `HashData`
with the frame's content hash and whether that hash is already present
in the cache; it receives no part of the cacher's state and returns only
its result. -/
def GenerateHashes (viewer : MirrorGraph) (cache : List Nat) (times : List ℚ) :
    List HashData :=
  times.map (fun t => ⟨t, frameHash viewer t, cache.contains (frameHash viewer t)⟩)

/-- C8: the hash generator is deterministic: any two entries produced by
any two invocations of `GenerateHashes` against the same mirror snapshot
agree on the hash whenever they agree on the time, regardless of the
cache state or of which other times were in each batch; being a plain
function of its arguments, it mutates no shared state. -/
theorem generateHashes_deterministic
    (viewer : MirrorGraph) (cache1 cache2 : List Nat) (times1 times2 : List ℚ)
    (e1 e2 : HashData)
    (h1 : e1 ∈ GenerateHashes viewer cache1 times1)
    (h2 : e2 ∈ GenerateHashes viewer cache2 times2)
    (ht : e1.time = e2.time) :
    e1.hash = e2.hash := by
  simp only [GenerateHashes, List.mem_map] at h1 h2
  obtain ⟨t1, -, he1⟩ := h1
  obtain ⟨t2, -, he2⟩ := h2
  have k1 : e1.hash = frameHash viewer e1.time := by rw [← he1]
  have k2 : e2.hash = frameHash viewer e2.time := by rw [← he2]
  rw [k1, k2, ht]

/-- Witness for C8: two invocations against the same one-node mirror but
different caches and different batches produce the same hash 4 for the
shared time 2. -/
theorem generateHashes_deterministic_witness :
    (⟨2, 4, false⟩ : HashData) ∈ GenerateHashes ⟨[1], [], [], []⟩ [] [2] ∧
    (⟨2, 4, true⟩ : HashData) ∈ GenerateHashes ⟨[1], [], [], []⟩ [4] [3, 2] ∧
    (⟨2, 4, false⟩ : HashData).hash = (⟨2, 4, true⟩ : HashData).hash :=
  ⟨by decide, by decide,
   generateHashes_deterministic ⟨[1], [], [], []⟩ [] [4] [2] [3, 2]
     ⟨2, 4, false⟩ ⟨2, 4, true⟩ (by decide) (by decide) rfl⟩

/-- Modelled from the spec: the asynchronous-task bookkeeping of the
cacher: the in-flight video and audio watchers (by ticket identity) and
the log of video completion handlers that have run. -/
structure TaskState where
  videoTasks : List Nat
  audioTasks : List Nat
  firedVideoHandlers : List Nat
deriving DecidableEq, Repr

/-- A video completion handler can fire only for a ticket that is still
in the in-flight video set. -/
def canFireVideo (s : TaskState) (w : Nat) : Prop :=
  w ∈ s.videoTasks

/-- Modelled from the spec: `CancelVideoTasks` signals cancel to every
in-flight video task; with and_wait=true the call returns only after
every canceled task's completion handler has run, each removing its task
from the in-flight set; without waiting, the set is untouched at return
and the tasks finish asynchronously later. -/
def CancelVideoTasks (andWait : Bool) (s : TaskState) : TaskState :=
  if andWait then
    { s with
      videoTasks := []
      firedVideoHandlers := s.videoTasks ++ s.firedVideoHandlers }
  else s

/-- C9: after `CancelVideoTasks(true)` returns, the in-flight video set
is empty (count zero), no video completion handler can fire any more,
every previously in-flight task's completion handler has run during the
call, and audio tasks are unaffected. -/
theorem cancelVideoTasks_and_wait (s : TaskState) :
    (CancelVideoTasks true s).videoTasks = [] ∧
    (∀ w : Nat, ¬ canFireVideo (CancelVideoTasks true s) w) ∧
    (CancelVideoTasks true s).firedVideoHandlers =
      s.videoTasks ++ s.firedVideoHandlers ∧
    (CancelVideoTasks true s).audioTasks = s.audioTasks := by
  refine ⟨rfl, ?_, rfl, rfl⟩
  intro w hw
  simp [CancelVideoTasks, canFireVideo] at hw

/-- Witness for C9 at a concrete state with two in-flight video tasks
and one audio task. -/
theorem cancelVideoTasks_and_wait_witness :
    (CancelVideoTasks true ⟨[1, 2], [3], []⟩).videoTasks = [] ∧
    (∀ w : Nat, ¬ canFireVideo (CancelVideoTasks true ⟨[1, 2], [3], []⟩) w) ∧
    (CancelVideoTasks true ⟨[1, 2], [3], []⟩).firedVideoHandlers =
      (⟨[1, 2], [3], []⟩ : TaskState).videoTasks ++
        (⟨[1, 2], [3], []⟩ : TaskState).firedVideoHandlers ∧
    (CancelVideoTasks true ⟨[1, 2], [3], []⟩).audioTasks =
      (⟨[1, 2], [3], []⟩ : TaskState).audioTasks :=
  cancelVideoTasks_and_wait ⟨[1, 2], [3], []⟩

end OliveSpec
